import Mathlib

/-!
Verification development for the flat GP-tree encoding of `evogp`
(`src/evogp/tree/tree.py`).

The Python code is shallowly embedded: numpy/torch scalars become `ℚ`
(exact rationals; the protected-division policy and all claim-relevant
control flow are value-exact), the three per-tree arrays become Lean
lists, and fallible Python operations (array indexing, `list.pop`,
`assert`, attribute lookup) become `Except`-valued functions.  Each
embedded function mirrors its Python source line by line, including the
order in which reads, pops and assertions happen.
-/

deriving instance DecidableEq for Except

namespace EvoGP

/-! ## Python exception model -/

/-- Python exception kinds raised by the embedded code: `indexError` for an
out-of-range array/list subscript, `popEmpty` for `list.pop` on an empty
list (Python raises `IndexError('pop from empty list')`; kept separate for
legibility), `assertionError` for a failed `assert`, `notImplementedError`
for `raise NotImplementedError`, `attributeError` for reading an attribute
that was never assigned. -/
inductive PyErr where
  | indexError
  | popEmpty
  | assertionError
  | notImplementedError
  | attributeError
deriving DecidableEq, Repr

/-- Array/list subscript `l[i]` for a non-negative index: `IndexError` when
`i` is out of range. -/
def np_get (l : List α) (i : ℕ) : Except PyErr α :=
  match l[i]? with
  | some a => .ok a
  | none => .error .indexError

/-- Array/list subscript `l[k]` with full Python semantics: negative
indices wrap from the end, anything outside `[-len, len)` raises
`IndexError`. -/
def np_get_i (l : List α) (k : ℤ) : Except PyErr α :=
  if 0 ≤ k then np_get l k.toNat
  else if -(l.length : ℤ) ≤ k then np_get l ((l.length : ℤ) + k).toNat
  else .error .indexError

/-- Python `list.pop(-1)`.  Stacks are modelled with the list head as the
top of the stack (`append` = cons, `pop(-1)` = uncons). -/
def pyPop (s : List α) : Except PyErr (α × List α) :=
  match s with
  | [] => .error .popEmpty
  | a :: rest => .ok (a, rest)

/-- Python `int(q)`: truncation toward zero. -/
def pyInt (q : ℚ) : ℤ :=
  if q < 0 then -(⌊-q⌋) else ⌊q⌋

/-- Python slicing `l[:n]` as used on the node arrays: a non-negative bound
clamps to the length, a negative bound counts from the end. -/
def pySlice (l : List α) (n : ℤ) : List α :=
  if 0 ≤ n then l.take n.toNat
  else l.take ((l.length : ℤ) + n).toNat

/-- `numpy.allclose(a, b)` with the default tolerances
`rtol = 1e-5`, `atol = 1e-8` (scalar case). -/
def np_allclose (a b : ℚ) : Bool :=
  decide (|a - b| ≤ 1 / 100000000 + (1 / 100000) * |b|)

/-- Python `f-string` formatting `{q:.2f}`: two decimal digits.  Ties are
rounded half away from zero here; CPython rounds the underlying binary
float half to even, a difference no claim depends on (no claim inspects a
rendered constant). -/
def fmt2 (q : ℚ) : String :=
  let n : ℤ := round (q * 100)
  let sign := if n < 0 then "-" else ""
  let m := n.natAbs
  let frac := m % 100
  let fracs := if frac < 10 then "0" ++ toString frac else toString frac
  sign ++ toString (m / 100) ++ "." ++ fracs

/-! ## Node model (`evogp.tree.utils`, not part of `src/`)

Modelled from the spec: the node-kind tags and the opcode table live in
`evogp/tree/utils.py`, which is not among the provided sources.  Spec §3
and §9 fix the node kind as a closed five-case tagged variant
(`CONST`, `VAR`, `UFUNC`, `BFUNC`, `TFUNC`); spec §6 fixes the opcode
table as a single static id → (display name, arity) mapping shared by the
interpreter and the serializer.  The numbering below follows the table the
code itself witnesses: `tree.py` treats display ids 5, 6, 7 as the
function-style binary opcodes (`pow`/`max`/`min`), so the infix arithmetic
opcodes sit at 1–4 and the trigonometric unary opcodes start at 12. -/

/-- Node kind tag (spec §3, §9: a closed 5-variant). -/
inductive NType where
  | VAR
  | CONST
  | UFUNC
  | BFUNC
  | TFUNC
deriving DecidableEq, Repr

/-! Modelled from the spec: opcode ids of the shared opcode table
(`Func` in `evogp/tree/utils.py`, missing from `src/`).  Stored in the
`node_value` array as numbers, hence `ℚ` here. -/

namespace Func

def IF : ℚ := 0
def ADD : ℚ := 1
def SUB : ℚ := 2
def MUL : ℚ := 3
def DIV : ℚ := 4
def POW : ℚ := 5
def MAX : ℚ := 6
def MIN : ℚ := 7
def SIN : ℚ := 12
def COS : ℚ := 13
def TAN : ℚ := 14

end Func

/-- Modelled from the spec: display-name column of the opcode table
(`FUNCS_DISPLAY` in `evogp/tree/utils.py`, missing from `src/`).  Only the
entries at ids 1–4 are inspected by any claim. -/
def FUNCS_DISPLAY : List String :=
  ["if", "+", "-", "*", "/", "pow", "max", "min", "<", ">", "<=", ">=",
   "sin", "cos", "tan"]

/-- Modelled from the spec: token-name column of the opcode table
(`FUNCS_NAMES` in `evogp/tree/utils.py`, missing from `src/`); used only
by the token serializer, whose exact spellings no claim inspects. -/
def FUNCS_NAMES : List String := FUNCS_DISPLAY

/-! ## The Tree value (`Tree.__init__`) -/

/-- The flat tree encoding: the fields assigned by `Tree.__init__`.
`gp_len` is derived (`node_value.shape[0]`).  `input_len`/`output_len` are
arbitrary Python ints, hence `ℤ`; `subtree_size` entries are ints, hence
`ℤ`; `node_value` entries are floats, hence `ℚ`. -/
structure Tree where
  input_len : ℤ
  output_len : ℤ
  node_value : List ℚ
  node_type : List NType
  subtree_size : List ℤ
deriving DecidableEq, Repr

/-- `gp_len = node_value.shape[0]`. -/
def Tree.gp_len (t : Tree) : ℕ := t.node_value.length

/-- `Tree.__init__`: sets `gp_len := node_value.shape[0]` and asserts the
three arrays all have shape `(gp_len,)`.  No condition on
`input_len`/`output_len` is checked.  A failed Python `assert` raises
`AssertionError`. -/
def tree_init (input_len output_len : ℤ) (node_value : List ℚ)
    (node_type : List NType) (subtree_size : List ℤ) : Except PyErr Tree :=
  let gl := node_value.length
  if node_value.length = gl then
    if node_type.length = gl then
      if subtree_size.length = gl then
        .ok ⟨input_len, output_len, node_value, node_type, subtree_size⟩
      else .error .assertionError
    else .error .assertionError
  else .error .assertionError

/-! ## Reference interpreter (`Tree.python_forward`) -/

/-- The opcode dispatch inside `python_forward`'s function-node branch:
`res = op2 OP op1` where `op1` was popped first (the right operand, the
slot `i+1` child) and `op2` second (the left operand).  `left`/`right`
name the operands accordingly.  `DIV` is protected: a right operand
`allclose` to zero yields the left operand unchanged.  Any opcode other
than `ADD`/`SUB`/`MUL`/`DIV` hits `raise NotImplementedError`. -/
def applyFunc (v : ℚ) (left right : ℚ) : Except PyErr ℚ :=
  if v = Func.ADD then .ok (left + right)
  else if v = Func.SUB then .ok (left - right)
  else if v = Func.MUL then .ok (left * right)
  else if v = Func.DIV then
    if np_allclose right 0 then .ok left else .ok (left / right)
  else .error .notImplementedError

/-- One iteration of `python_forward`'s reverse loop, at slot `i`, with
`stk` the operand stack (head = top).  Mirrors the source order: the node
type is read, a `VAR`/`CONST` pushes, and any other kind pops twice
(`op1` then `op2`) before the opcode is inspected. -/
def evalStep (t : Tree) (inputs : List ℚ) (i : ℕ) (stk : List ℚ) :
    Except PyErr (List ℚ) :=
  match np_get t.node_type i with
  | .error e => .error e
  | .ok .VAR =>
    match np_get t.node_value i with
    | .error e => .error e
    | .ok v =>
      match np_get_i inputs (pyInt v) with
      | .error e => .error e
      | .ok x => .ok (x :: stk)
  | .ok .CONST =>
    match np_get t.node_value i with
    | .error e => .error e
    | .ok v => .ok (v :: stk)
  | .ok _ =>
    match pyPop stk with
    | .error e => .error e
    | .ok p1 =>
      match pyPop p1.2 with
      | .error e => .error e
      | .ok p2 =>
        match np_get t.node_value i with
        | .error e => .error e
        | .ok v =>
          match applyFunc v p2.1 p1.1 with
          | .error e => .error e
          | .ok r => .ok (r :: p2.2)

/-- `python_forward`'s loop over a list of slot indices. -/
def evalLoopAux (t : Tree) (inputs : List ℚ) :
    List ℕ → List ℚ → Except PyErr (List ℚ)
  | [], stk => .ok stk
  | i :: rest, stk =>
    match evalStep t inputs i stk with
    | .error e => .error e
    | .ok stk1 => evalLoopAux t inputs rest stk1

/-- The index sequence `range(n - 1, -1, -1)`: `n-1, …, 1, 0`. -/
def descRange (n : ℕ) : List ℕ := (List.range n).reverse

/-- `Tree.python_forward`: asserts the input shape and `output_len == 1`,
reads `tree_size = subtree_size[0]`, runs the reverse stack loop over
`range(tree_size - 1, -1, -1)`, and asserts exactly one operand remains.
A negative `tree_size` gives an empty Python `range`, hence `descRange`
of its `toNat`. -/
def python_forward (t : Tree) (inputs : List ℚ) : Except PyErr ℚ :=
  if (inputs.length : ℤ) = t.input_len then
    if t.output_len = 1 then
      match np_get t.subtree_size 0 with
      | .error e => .error e
      | .ok ts =>
        match evalLoopAux t inputs (descRange ts.toNat) [] with
        | .error e => .error e
        | .ok [r] => .ok r
        | .ok _ => .error .assertionError
    else .error .assertionError
  else .error .assertionError

/-! ## Structural validator (`Tree.assert_valid`) -/

/-- Arity added to the counter in `assert_valid`'s forward span walk
(leaves and any other tag add 0). -/
def arity : NType → ℕ
  | .UFUNC => 1
  | .BFUNC => 2
  | .TFUNC => 3
  | _ => 0

/-- Failure kinds of `assert_valid`, one per program point, following the
spec's §7 taxonomy: `evalError` wraps any exception escaping the initial
`python_forward` smoke test; `indexError` is an out-of-range array read
inside the validator itself; `malformedSpan` is the
`assert subtree_size[0] == root_real_size`; `sizeMismatch i` is the
`assert subtree_size[i] == size` of the second pass; `stackUnderflow` is a
pop from an empty operand stack in the second pass; `trailingOperands` is
the final `assert len(operents) == 1`. -/
inductive VErr where
  | evalError (e : PyErr)
  | indexError
  | malformedSpan
  | sizeMismatch (i : ℕ)
  | stackUnderflow
  | trailingOperands
deriving DecidableEq, Repr

/-- The `while True` counter walk of `assert_valid` (first pass): starting
from `needed_length = 1` at `idx = 0`, each visited node decrements the
counter and adds its arity; the walk stops, returning the recomputed root
span, when the counter hits zero.  Reading past the end of the array
raises `IndexError`, which bounds the recursion. -/
def spanWalk (types : List NType) (idx : ℕ) (need : ℕ) : Except VErr ℕ :=
  if hlt : idx < types.length then
    let need1 := need - 1 + arity types[idx]
    if need1 = 0 then .ok (idx + 1)
    else spanWalk types (idx + 1) need1
  else .error .indexError
termination_by types.length - idx

/-- One iteration of `assert_valid`'s second pass at slot `i`: derive the
slot's subtree size from the operand stack (leaves are 1, a `k`-ary
function pops `k` derived sizes and adds 1), push it, and assert it equal
to the stored `subtree_size[i]`. -/
def sizeStep (t : Tree) (i : ℕ) (stk : List ℤ) : Except VErr (List ℤ) :=
  match np_get t.node_type i with
  | .error _ => .error .indexError
  | .ok ty =>
    let popped : Except VErr (ℤ × List ℤ) :=
      match ty with
      | .VAR => .ok (1, stk)
      | .CONST => .ok (1, stk)
      | .UFUNC =>
        match stk with
        | a :: s => .ok (a + 1, s)
        | _ => .error .stackUnderflow
      | .BFUNC =>
        match stk with
        | a :: b :: s => .ok (a + b + 1, s)
        | _ => .error .stackUnderflow
      | .TFUNC =>
        match stk with
        | a :: b :: c :: s => .ok (a + b + c + 1, s)
        | _ => .error .stackUnderflow
    match popped with
    | .error e => .error e
    | .ok (sz, s) =>
      match np_get t.subtree_size i with
      | .error _ => .error .indexError
      | .ok stored => if stored = sz then .ok (sz :: s) else .error (.sizeMismatch i)

/-- `assert_valid`'s second-pass loop over a list of slot indices. -/
def sizeLoopAux (t : Tree) : List ℕ → List ℤ → Except VErr (List ℤ)
  | [], stk => .ok stk
  | i :: rest, stk =>
    match sizeStep t i stk with
    | .error e => .error e
    | .ok stk1 => sizeLoopAux t rest stk1

/-- `Tree.assert_valid`, in source order: (1) the semantic smoke test —
`python_forward` on an all-zero input vector (`[0.0] * input_len`; empty
for non-positive `input_len`), any escaping exception wrapped as
`evalError`; (2) the forward counter walk recomputing the root span;
(3) `assert subtree_size[0] == root_real_size` (`malformedSpan`);
(4) the reverse second pass re-deriving every stored size over
`range(root_real_size - 1, -1, -1)`; (5) `assert len(operents) == 1`
(`trailingOperands`). -/
def assert_valid (t : Tree) : Except VErr Unit :=
  match python_forward t (List.replicate t.input_len.toNat 0) with
  | .error e => .error (.evalError e)
  | .ok _ =>
    match spanWalk t.node_type 0 1 with
    | .error e => .error e
    | .ok root_real_size =>
      match np_get t.subtree_size 0 with
      | .error _ => .error .indexError
      | .ok s0 =>
        if s0 = (root_real_size : ℤ) then
          match sizeLoopAux t (descRange root_real_size) [] with
          | .error e => .error e
          | .ok [_] => .ok ()
          | .ok _ => .error .trailingOperands
        else .error .malformedSpan

/-! ## Token serializer (`Tree.__str__`) -/

/-- `Tree.__str__`'s forward loop body at slot `i`: function kinds emit
the opcode's token name, variables emit `x[<index>]`, constants emit the
value at two decimals; every token is followed by a space. -/
def strStep (t : Tree) (i : ℕ) : Except PyErr String :=
  match np_get t.node_type i with
  | .error e => .error e
  | .ok ty =>
    match np_get t.node_value i with
    | .error e => .error e
    | .ok v =>
      match ty with
      | .UFUNC =>
        match np_get_i FUNCS_NAMES (pyInt v) with
        | .error e => .error e
        | .ok d => .ok (d ++ " ")
      | .BFUNC =>
        match np_get_i FUNCS_NAMES (pyInt v) with
        | .error e => .error e
        | .ok d => .ok (d ++ " ")
      | .TFUNC =>
        match np_get_i FUNCS_NAMES (pyInt v) with
        | .error e => .error e
        | .ok d => .ok (d ++ " ")
      | .VAR => .ok ("x[" ++ toString (pyInt v) ++ "]" ++ " ")
      | .CONST => .ok (fmt2 v ++ " ")

/-- `Tree.__str__`'s loop over `range(0, subtree_size[0])`. -/
def strLoopAux (t : Tree) : List ℕ → String → Except PyErr String
  | [], acc => .ok acc
  | i :: rest, acc =>
    match strStep t i with
    | .error e => .error e
    | .ok piece => strLoopAux t rest (acc ++ piece)

/-- `Tree.__str__`: the flat space-separated token rendering of the root
span. -/
def Tree.str (t : Tree) : Except PyErr String :=
  match np_get t.subtree_size 0 with
  | .error e => .error e
  | .ok s0 => strLoopAux t (List.range s0.toNat) ""

/-! ## Infix serializer (`Tree.to_infix`) -/

/-- One iteration of the infix builder over the reversed root span, for a
node of kind `ty` and value `v`, on a stack of rendered strings.  Pops and
table lookups happen in the evaluation order of the source f-strings:
Python evaluates f-string holes left to right, so the FIRST `stack.pop()`
of a binary-node f-string lands in the LEFTMOST hole.  Binary display ids
5, 6, 7 use the function-style `name(a,b)` form, all other binary ids the
parenthesized infix form. -/
def renderStep (ty : NType) (v : ℚ) (stk : List String) :
    Except PyErr (List String) :=
  match ty with
  | .VAR => .ok (("x[" ++ toString (pyInt v) ++ "]") :: stk)
  | .CONST => .ok (fmt2 v :: stk)
  | .UFUNC =>
    match np_get_i FUNCS_DISPLAY (pyInt v) with
    | .error e => .error e
    | .ok d =>
      match pyPop stk with
      | .error e => .error e
      | .ok p => .ok ((d ++ "(" ++ p.1 ++ ")") :: p.2)
  | .BFUNC =>
    if pyInt v = 5 ∨ pyInt v = 6 ∨ pyInt v = 7 then
      match np_get_i FUNCS_DISPLAY (pyInt v) with
      | .error e => .error e
      | .ok d =>
        match pyPop stk with
        | .error e => .error e
        | .ok p1 =>
          match pyPop p1.2 with
          | .error e => .error e
          | .ok p2 => .ok ((d ++ "(" ++ p1.1 ++ "," ++ p2.1 ++ ")") :: p2.2)
    else
      match pyPop stk with
      | .error e => .error e
      | .ok p1 =>
        match np_get_i FUNCS_DISPLAY (pyInt v) with
        | .error e => .error e
        | .ok d =>
          match pyPop p1.2 with
          | .error e => .error e
          | .ok p2 =>
            .ok (("(" ++ p1.1 ++ " " ++ d ++ " " ++ p2.1 ++ ")") :: p2.2)
  | .TFUNC =>
    match np_get_i FUNCS_DISPLAY (pyInt v) with
    | .error e => .error e
    | .ok d =>
      match pyPop stk with
      | .error e => .error e
      | .ok p1 =>
        match pyPop p1.2 with
        | .error e => .error e
        | .ok p2 =>
          match pyPop p2.2 with
          | .error e => .error e
          | .ok p3 =>
            .ok ((d ++ "(" ++ p1.1 ++ "," ++ p2.1 ++ "," ++ p3.1 ++ ")") :: p3.2)

/-- The infix builder's loop over the zipped (type, value) pairs. -/
def renderLoopAux : List (NType × ℚ) → List String → Except PyErr (List String)
  | [], stk => .ok stk
  | p :: rest, stk =>
    match renderStep p.1 p.2 stk with
    | .error e => .error e
    | .ok stk1 => renderLoopAux rest stk1

/-- `Tree.to_infix`: warns (first component `true`) when
`output_len != 1`, then builds the fully parenthesized rendering by a
single pass over the reversed root-span slices
(`flip(node_type[:num])` zipped with `flip(node_value[:num])`), and
returns the top of the string stack (`stack.pop()`, an `IndexError` when
the stack ends empty). -/
def to_infix (t : Tree) : Bool × Except PyErr String :=
  let warn : Bool := decide (t.output_len ≠ 1)
  match np_get t.subtree_size 0 with
  | .error e => (warn, .error e)
  | .ok num =>
    let tys := (pySlice t.node_type num).reverse
    let vs := (pySlice t.node_value num).reverse
    match renderLoopAux (tys.zip vs) [] with
    | .error e => (warn, .error e)
    | .ok [] => (warn, .error .popEmpty)
    | .ok (s :: _) => (warn, .ok s)

/-! ## Batched fitness entry point (`Tree.SR_fitness`) -/

/-- Shape of a 2-D tensor argument (`check_tensor` output).  The numeric
payload is irrelevant to every claim about `SR_fitness` — it would only be
consumed by the external CUDA kernel, which is never reached — so only the
shape is carried. -/
structure Tens2 where
  rows : ℕ
  cols : ℕ
deriving DecidableEq, Repr

/-- The argument tuple `SR_fitness` would pass to
`torch.ops.evogp.tree_SR_fitness`; producing a value of this type marks
the point where the external kernel would be invoked. -/
structure KernelArgs where
  popsize : ℕ
  batch_size : ℕ
  gp_len : ℕ
  input_len : ℤ
  output_len : ℤ
  use_MSE : Bool
  batch_node_value : List (List ℚ)
  batch_node_type : List (List NType)
  batch_subtree_size : List (List ℤ)
  inputs : Tens2
  labels : Tens2

/-- Python attribute lookup `self.batch_node_value`: `Tree.__init__`
assigns exactly `input_len`, `output_len`, `gp_len`, `node_value`,
`node_type` and `subtree_size`, and no other method of the class ever
assigns an attribute (`forward` builds `batch_node_value` as a LOCAL
variable only), so this lookup raises `AttributeError`. -/
def Tree.batch_node_value (_ : Tree) : Except PyErr (List (List ℚ)) :=
  .error .attributeError

/-- Python attribute lookup `self.batch_node_type`; never assigned, see
`Tree.batch_node_value`. -/
def Tree.batch_node_type (_ : Tree) : Except PyErr (List (List NType)) :=
  .error .attributeError

/-- Python attribute lookup `self.batch_subtree_size`; never assigned, see
`Tree.batch_node_value`. -/
def Tree.batch_subtree_size (_ : Tree) : Except PyErr (List (List ℤ)) :=
  .error .attributeError

/-- `Tree.SR_fitness`: asserts `inputs.shape == (batch_size, input_len)`
and `labels.shape == (batch_size, output_len)` (with
`batch_size = inputs.shape[0]`), then evaluates the kernel call's
arguments left to right — reaching the never-assigned attributes
`batch_node_value`, `batch_node_type`, `batch_subtree_size` before the
kernel call itself. -/
def SR_fitness (t : Tree) (inputs labels : Tens2) (use_MSE : Bool) :
    Except PyErr KernelArgs :=
  let batch_size := inputs.rows
  if inputs.rows = batch_size ∧ (inputs.cols : ℤ) = t.input_len then
    if labels.rows = batch_size ∧ (labels.cols : ℤ) = t.output_len then
      match t.batch_node_value with
      | .error e => .error e
      | .ok bnv =>
        match t.batch_node_type with
        | .error e => .error e
        | .ok bnt =>
          match t.batch_subtree_size with
          | .error e => .error e
          | .ok bss =>
            .ok ⟨1, batch_size, t.gp_len, t.input_len, t.output_len, use_MSE,
                 bnv, bnt, bss, inputs, labels⟩
    else .error .assertionError
  else .error .assertionError

/-! ## Abstract expression trees and the validity of flat encodings -/

/-- Abstract expression tree.  For an internal node the FIRST listed child
is the one encoded at slot `i+1`, which by the layout invariant (spec §3)
is the RIGHTMOST child in evaluation order — for a binary node `bin v a b`,
`a` is the right operand and `b` the left operand. -/
inductive GTree where
  | cst (c : ℚ)
  | var (k : ℕ)
  | un (v : ℚ) (a : GTree)
  | bin (v : ℚ) (a b : GTree)
  | tern (v : ℚ) (a b c : GTree)
deriving DecidableEq, Repr

/-- Number of encoding slots of a subtree. -/
def GTree.size : GTree → ℕ
  | .cst _ => 1
  | .var _ => 1
  | .un _ a => 1 + a.size
  | .bin _ a b => 1 + a.size + b.size
  | .tern _ a b c => 1 + a.size + b.size + c.size

/-- The `node_type` segment of a subtree's flat encoding (root first). -/
def GTree.types : GTree → List NType
  | .cst _ => [.CONST]
  | .var _ => [.VAR]
  | .un _ a => .UFUNC :: a.types
  | .bin _ a b => .BFUNC :: (a.types ++ b.types)
  | .tern _ a b c => .TFUNC :: (a.types ++ b.types ++ c.types)

/-- The `node_value` segment of a subtree's flat encoding. -/
def GTree.vals : GTree → List ℚ
  | .cst c => [c]
  | .var k => [(k : ℚ)]
  | .un v a => v :: a.vals
  | .bin v a b => v :: (a.vals ++ b.vals)
  | .tern v a b c => v :: (a.vals ++ b.vals ++ c.vals)

/-- The `subtree_size` segment of a subtree's flat encoding. -/
def GTree.sizes : GTree → List ℤ
  | .cst _ => [1]
  | .var _ => [1]
  | .un _ a => ((1 + a.size : ℕ) : ℤ) :: a.sizes
  | .bin _ a b => ((1 + a.size + b.size : ℕ) : ℤ) :: (a.sizes ++ b.sizes)
  | .tern _ a b c =>
      ((1 + a.size + b.size + c.size : ℕ) : ℤ) :: (a.sizes ++ b.sizes ++ c.sizes)

@[simp] theorem GTree.types_length (T : GTree) : T.types.length = T.size := by
  induction T <;> simp [GTree.types, GTree.size, *] <;> omega

@[simp] theorem GTree.vals_length (T : GTree) : T.vals.length = T.size := by
  induction T <;> simp [GTree.vals, GTree.size, *] <;> omega

@[simp] theorem GTree.sizes_length (T : GTree) : T.sizes.length = T.size := by
  induction T <;> simp [GTree.sizes, GTree.size, *] <;> omega

theorem GTree.sizes_head (T : GTree) : T.sizes[0]? = some (T.size : ℤ) := by
  cases T <;> simp [GTree.sizes, GTree.size]

@[simp] theorem GTree.size_pos (T : GTree) : 0 < T.size := by
  cases T <;> simp [GTree.size]

/-- A tree restricted to what the reference interpreter implements: every
internal node is binary with opcode `ADD`/`SUB`/`MUL`/`DIV`, every
variable index lies in `[0, il)`. -/
def GTree.arith (il : ℤ) : GTree → Bool
  | .cst _ => true
  | .var k => decide ((k : ℤ) < il)
  | .un _ _ => false
  | .tern _ _ _ _ => false
  | .bin v a b =>
      (decide (v = Func.ADD) || decide (v = Func.SUB) ||
       decide (v = Func.MUL) || decide (v = Func.DIV))
      && a.arith il && b.arith il

/-- Total version of the opcode dispatch on the four arithmetic opcodes
(the only ones an `arith` tree contains). -/
def applyArith (v : ℚ) (left right : ℚ) : ℚ :=
  if v = Func.ADD then left + right
  else if v = Func.SUB then left - right
  else if v = Func.MUL then left * right
  else if np_allclose right 0 then left else left / right

/-- Mathematical value of an `arith` tree (the non-arith constructors get a
dummy value; they are excluded by the `arith` hypothesis wherever this is
used). -/
def GTree.gval (inputs : List ℚ) : GTree → ℚ
  | .cst c => c
  | .var k => inputs.getD k 0
  | .un _ _ => 0
  | .tern _ _ _ _ => 0
  | .bin v a b => applyArith v (b.gval inputs) (a.gval inputs)

/-- `t` stores the encoding of `T` in its root span: the three arrays are
at least `T.size` long (and of equal length, as `__init__` guarantees) and
their first `T.size` entries are exactly `T`'s flat encoding; everything
beyond is arbitrary padding. -/
def Encodes (t : Tree) (T : GTree) : Prop :=
  T.size ≤ t.node_value.length ∧
  t.node_type.length = t.node_value.length ∧
  t.subtree_size.length = t.node_value.length ∧
  t.node_type.take T.size = T.types ∧
  t.node_value.take T.size = T.vals ∧
  t.subtree_size.take T.size = T.sizes

instance (t : Tree) (T : GTree) : Decidable (Encodes t T) := by
  unfold Encodes; infer_instance

/-- The single-entry corruption `subtree_size[p] = w` of claim C6. -/
def setSize (t : Tree) (p : ℕ) (w : ℤ) : Tree :=
  { t with subtree_size := t.subtree_size.set p w }

/-! ## Segment reading lemmas -/

/-- `seg` occupies positions `a, a+1, …` of `l`. -/
def SegAt (l : List α) (a : ℕ) (seg : List α) : Prop :=
  ∀ j, j < seg.length → l[a + j]? = seg[j]?

theorem SegAt.of_take {l seg : List α} {n : ℕ} (h : l.take n = seg) :
    SegAt l 0 seg := by
  intro j hj
  have hjn : j < n := by
    have : seg.length ≤ n := by
      rw [← h]; exact (List.length_take n l).le.trans (min_le_left _ _)
    omega
  have hx : seg[j]? = l[j]? := by
    rw [← h]
    exact List.getElem?_take_of_lt hjn
  simpa using hx.symm

theorem SegAt.head {l : List α} {a : ℕ} {x : α} {s : List α}
    (h : SegAt l a (x :: s)) : l[a]? = some x := by
  have := h 0 (by simp)
  simpa using this

theorem SegAt.tail {l : List α} {a : ℕ} {x : α} {s : List α}
    (h : SegAt l a (x :: s)) : SegAt l (a + 1) s := by
  intro j hj
  have := h (j + 1) (by simpa using hj)
  have harith : a + (j + 1) = a + 1 + j := by omega
  simpa [harith] using this

theorem SegAt.left {l : List α} {a : ℕ} {s1 s2 : List α}
    (h : SegAt l a (s1 ++ s2)) : SegAt l a s1 := by
  intro j hj
  have := h j (by simp; omega)
  simpa [List.getElem?_append_left hj] using this

theorem SegAt.right {l : List α} {a : ℕ} {s1 s2 : List α}
    (h : SegAt l a (s1 ++ s2)) : SegAt l (a + s1.length) s2 := by
  intro j hj
  have := h (s1.length + j) (by simp; omega)
  have harith : a + (s1.length + j) = a + s1.length + j := by omega
  have happ : (s1 ++ s2)[s1.length + j]? = s2[j]? := by
    rw [List.getElem?_append_right (by omega)]
    congr 1
    omega
  rw [harith, happ] at this
  exact this

theorem SegAt.set_outside {l : List α} {a : ℕ} {seg : List α} {p : ℕ} {w : α}
    (h : SegAt l a seg) (hp : p < a ∨ a + seg.length ≤ p) :
    SegAt (l.set p w) a seg := by
  intro j hj
  rw [List.getElem?_set_ne (by omega)]
  exact h j hj

/-! ## Loop decomposition lemmas -/

theorem range'_split (a m n : ℕ) :
    List.range' a (m + n) = List.range' a m ++ List.range' (a + m) n := by
  have h := List.range'_append a m n 1
  simp only [one_mul] at h
  rw [Nat.add_comm m n]
  exact h.symm

theorem descRange_succ (n : ℕ) : descRange (n + 1) = n :: descRange n := by
  simp [descRange, List.range_succ]

theorem descRange_eq_revRange' (n : ℕ) :
    descRange n = (List.range' 0 n).reverse := by
  simp [descRange, List.range_eq_range']

theorem evalLoopAux_append (t : Tree) (inputs : List ℚ) (l1 l2 : List ℕ)
    (stk : List ℚ) :
    evalLoopAux t inputs (l1 ++ l2) stk =
      match evalLoopAux t inputs l1 stk with
      | .error e => .error e
      | .ok s => evalLoopAux t inputs l2 s := by
  induction l1 generalizing stk with
  | nil => simp [evalLoopAux]
  | cons i rest ih =>
      simp only [List.cons_append, evalLoopAux]
      cases evalStep t inputs i stk <;> simp [ih]

theorem sizeLoopAux_append (t : Tree) (l1 l2 : List ℕ) (stk : List ℤ) :
    sizeLoopAux t (l1 ++ l2) stk =
      match sizeLoopAux t l1 stk with
      | .error e => .error e
      | .ok s => sizeLoopAux t l2 s := by
  induction l1 generalizing stk with
  | nil => simp [sizeLoopAux]
  | cons i rest ih =>
      simp only [List.cons_append, sizeLoopAux]
      cases sizeStep t i stk <;> simp [ih]

theorem renderLoopAux_append (l1 l2 : List (NType × ℚ)) (stk : List String) :
    renderLoopAux (l1 ++ l2) stk =
      match renderLoopAux l1 stk with
      | .error e => .error e
      | .ok s => renderLoopAux l2 s := by
  induction l1 generalizing stk with
  | nil => simp [renderLoopAux]
  | cons p rest ih =>
      simp only [List.cons_append, renderLoopAux]
      cases renderStep p.1 p.2 stk <;> simp [ih]

/-! ## Arithmetic helper lemmas -/

theorem pyInt_natCast (k : ℕ) : pyInt (k : ℚ) = k := by
  rw [pyInt, if_neg (not_lt.mpr (by positivity))]
  exact Int.floor_natCast k

theorem applyFunc_arith (v l r : ℚ)
    (hv : v = Func.ADD ∨ v = Func.SUB ∨ v = Func.MUL ∨ v = Func.DIV) :
    applyFunc v l r = .ok (applyArith v l r) := by
  rcases hv with h | h | h | h <;> subst h <;>
    norm_num [applyFunc, applyArith, Func.ADD, Func.SUB, Func.MUL, Func.DIV] <;>
    split <;> rfl

/-! ## The reference interpreter on encoded segments -/

theorem np_get_of_seg {l : List α} {a : ℕ} {x : α} {seg : List α}
    (h : SegAt l a (x :: seg)) : np_get l a = .ok x := by
  rw [np_get, h.head]

theorem evalLoop_seg (t : Tree) (inputs : List ℚ) :
    ∀ T : GTree, T.arith (inputs.length : ℤ) = true →
    ∀ (a : ℕ) (stk : List ℚ),
      SegAt t.node_type a T.types → SegAt t.node_value a T.vals →
      evalLoopAux t inputs ((List.range' a T.size).reverse) stk
        = .ok (T.gval inputs :: stk) := by
  intro T
  induction T with
  | cst c =>
      intro _ a stk hty hv
      simp only [GTree.types] at hty
      simp only [GTree.vals] at hv
      simp [GTree.size, GTree.gval, evalLoopAux, evalStep,
            np_get_of_seg hty, np_get_of_seg hv]
  | var k =>
      intro hA a stk hty hv
      simp only [GTree.arith, decide_eq_true_eq] at hA
      simp only [GTree.types] at hty
      simp only [GTree.vals] at hv
      have hk : k < inputs.length := by exact_mod_cast hA
      have hget : np_get_i inputs (pyInt (k : ℚ)) = .ok (inputs.getD k 0) := by
        rw [pyInt_natCast, np_get_i, if_pos (by positivity)]
        rw [Int.toNat_natCast, np_get, List.getElem?_eq_getElem hk]
        rw [List.getD_eq_getElem?_getD, List.getElem?_eq_getElem hk]
        rfl
      simp [GTree.size, GTree.gval, evalLoopAux, evalStep,
            np_get_of_seg hty, np_get_of_seg hv, hget]
  | un v x ih =>
      intro hA
      simp [GTree.arith] at hA
  | tern v x y z ihx ihy ihz =>
      intro hA
      simp [GTree.arith] at hA
  | bin v x y ihx ihy =>
      intro hA a stk hty hv
      simp only [GTree.arith, Bool.and_eq_true, Bool.or_eq_true,
                 decide_eq_true_eq] at hA
      obtain ⟨⟨hop, hax⟩, hay⟩ := hA
      have hvor : v = Func.ADD ∨ v = Func.SUB ∨ v = Func.MUL ∨ v = Func.DIV := by
        tauto
      simp only [GTree.types] at hty
      simp only [GTree.vals] at hv
      have htyx : SegAt t.node_type (a + 1) x.types := hty.tail.left
      have htyy : SegAt t.node_type (a + 1 + x.size) y.types := by
        have h := hty.tail.right
        simpa [GTree.types_length] using h
      have hvx : SegAt t.node_value (a + 1) x.vals := hv.tail.left
      have hvy : SegAt t.node_value (a + 1 + x.size) y.vals := by
        have h := hv.tail.right
        simpa [GTree.vals_length] using h
      have hsplit : (List.range' a (GTree.bin v x y).size).reverse
          = ((List.range' (a + 1 + x.size) y.size).reverse
              ++ (List.range' (a + 1) x.size).reverse) ++ [a] := by
        have e1 : (GTree.bin v x y).size = 1 + (x.size + y.size) := by
          simp [GTree.size]; omega
        rw [e1, range'_split a 1 (x.size + y.size),
            range'_split (a + 1) x.size y.size]
        have e2 : List.range' a 1 = [a] := by simp
        rw [e2]
        simp [List.reverse_append, Nat.add_assoc]
      rw [hsplit, evalLoopAux_append, evalLoopAux_append,
          ihy hay (a + 1 + x.size) stk htyy hvy]
      have hroot : np_get t.node_type a = .ok .BFUNC := np_get_of_seg hty
      have hval : np_get t.node_value a = .ok v := np_get_of_seg hv
      simp [ihx hax (a + 1) (y.gval inputs :: stk) htyx hvx,
            evalLoopAux, evalStep, hroot, hval, pyPop,
            applyFunc_arith v (y.gval inputs) (x.gval inputs) hvor,
            GTree.gval]

/-! ## The validator passes on encoded segments -/

theorem spanWalk_seg (types : List NType) :
    ∀ T : GTree, ∀ a need : ℕ, SegAt types a T.types →
      spanWalk types a (need + 1)
        = if need = 0 then .ok (a + T.size) else spanWalk types (a + T.size) need := by
  intro T
  induction T generalizing types with
  | cst c =>
      intro a need h
      simp only [GTree.types] at h
      obtain ⟨hlt, helem⟩ := List.getElem?_eq_some_iff.mp h.head
      rw [spanWalk, dif_pos hlt]
      simp only [helem, arity, GTree.size, Nat.add_sub_cancel, Nat.add_zero]
  | var k =>
      intro a need h
      simp only [GTree.types] at h
      obtain ⟨hlt, helem⟩ := List.getElem?_eq_some_iff.mp h.head
      rw [spanWalk, dif_pos hlt]
      simp only [helem, arity, GTree.size, Nat.add_sub_cancel, Nat.add_zero]
  | un v x ih =>
      intro a need h
      simp only [GTree.types] at h
      obtain ⟨hlt, helem⟩ := List.getElem?_eq_some_iff.mp h.head
      rw [spanWalk, dif_pos hlt]
      simp only [helem, arity, Nat.add_sub_cancel]
      rw [if_neg (Nat.succ_ne_zero need), ih types (a + 1) need h.tail]
      have e2 : a + 1 + x.size = a + (GTree.un v x).size := by
        simp [GTree.size]
        omega
      rw [e2]
  | bin v x y ihx ihy =>
      intro a need h
      simp only [GTree.types] at h
      obtain ⟨hlt, helem⟩ := List.getElem?_eq_some_iff.mp h.head
      rw [spanWalk, dif_pos hlt]
      simp only [helem, arity, Nat.add_sub_cancel]
      have e1 : need + 2 = (need + 1) + 1 := by omega
      rw [if_neg (by omega : ¬ need + 2 = 0), e1,
          ihx types (a + 1) (need + 1) h.tail.left,
          if_neg (Nat.succ_ne_zero need)]
      have h3 : SegAt types (a + 1 + x.size) y.types := by
        have h4 := h.tail.right
        simpa [GTree.types_length] using h4
      rw [ihy types (a + 1 + x.size) need h3]
      have e2 : a + 1 + x.size + y.size = a + (GTree.bin v x y).size := by
        simp [GTree.size]
        omega
      rw [e2]
  | tern v x y z ihx ihy ihz =>
      intro a need h
      simp only [GTree.types] at h
      obtain ⟨hlt, helem⟩ := List.getElem?_eq_some_iff.mp h.head
      rw [spanWalk, dif_pos hlt]
      simp only [helem, arity, Nat.add_sub_cancel]
      have hx : SegAt types (a + 1) x.types := by
        have h5 := h.tail
        simp only [← List.append_assoc] at h5
        exact h5.left.left
      have hy : SegAt types (a + 1 + x.size) y.types := by
        have h5 := h.tail
        simp only [← List.append_assoc] at h5
        have h6 := h5.left.right
        simpa [GTree.types_length] using h6
      have hz : SegAt types (a + 1 + x.size + y.size) z.types := by
        have h5 := h.tail
        simp only [← List.append_assoc] at h5
        have h6 := h5.right
        have e : (x.types ++ y.types).length = x.size + y.size := by
          simp [GTree.types_length]
        rw [e] at h6
        have e6 : a + 1 + (x.size + y.size) = a + 1 + x.size + y.size := by omega
        rw [e6] at h6
        exact h6
      have e1 : need + 3 = ((need + 1) + 1) + 1 := by omega
      rw [if_neg (by omega : ¬ need + 3 = 0), e1,
          ihx types (a + 1) ((need + 1) + 1) hx,
          if_neg (Nat.succ_ne_zero (need + 1)),
          ihy types (a + 1 + x.size) (need + 1) hy,
          if_neg (Nat.succ_ne_zero need),
          ihz types (a + 1 + x.size + y.size) need hz]
      have e2 : a + 1 + x.size + y.size + z.size = a + (GTree.tern v x y z).size := by
        simp [GTree.size]
        omega
      rw [e2]

@[simp] theorem setSize_node_type (t : Tree) (p : ℕ) (w : ℤ) :
    (setSize t p w).node_type = t.node_type := rfl

@[simp] theorem setSize_node_value (t : Tree) (p : ℕ) (w : ℤ) :
    (setSize t p w).node_value = t.node_value := rfl

@[simp] theorem setSize_input_len (t : Tree) (p : ℕ) (w : ℤ) :
    (setSize t p w).input_len = t.input_len := rfl

@[simp] theorem setSize_output_len (t : Tree) (p : ℕ) (w : ℤ) :
    (setSize t p w).output_len = t.output_len := rfl

@[simp] theorem setSize_subtree_size (t : Tree) (p : ℕ) (w : ℤ) :
    (setSize t p w).subtree_size = t.subtree_size.set p w := rfl

theorem sizeLoop_seg (t : Tree) :
    ∀ T : GTree, ∀ (a : ℕ) (stk : List ℤ),
      SegAt t.node_type a T.types → SegAt t.subtree_size a T.sizes →
      sizeLoopAux t ((List.range' a T.size).reverse) stk
        = .ok ((T.size : ℤ) :: stk) := by
  intro T
  induction T with
  | cst c =>
      intro a stk hty hsz
      simp only [GTree.types] at hty
      simp only [GTree.sizes] at hsz
      simp [GTree.size, sizeLoopAux, sizeStep,
            np_get_of_seg hty, np_get_of_seg hsz]
  | var k =>
      intro a stk hty hsz
      simp only [GTree.types] at hty
      simp only [GTree.sizes] at hsz
      simp [GTree.size, sizeLoopAux, sizeStep,
            np_get_of_seg hty, np_get_of_seg hsz]
  | un v x ih =>
      intro a stk hty hsz
      simp only [GTree.types] at hty
      simp only [GTree.sizes] at hsz
      have hsplit : (List.range' a (GTree.un v x).size).reverse
          = (List.range' (a + 1) x.size).reverse ++ [a] := by
        have e1 : (GTree.un v x).size = 1 + x.size := by simp [GTree.size]
        rw [e1, range'_split a 1 x.size]
        simp [List.reverse_append]
      rw [hsplit, sizeLoopAux_append, ih (a + 1) stk hty.tail hsz.tail]
      have e : ((1 + x.size : ℕ) : ℤ) = (x.size : ℤ) + 1 := by push_cast; ring
      simp [sizeLoopAux, sizeStep, np_get_of_seg hty, np_get_of_seg hsz,
            GTree.size, e]
  | bin v x y ihx ihy =>
      intro a stk hty hsz
      simp only [GTree.types] at hty
      simp only [GTree.sizes] at hsz
      have htyy : SegAt t.node_type (a + 1 + x.size) y.types := by
        have h := hty.tail.right
        simpa [GTree.types_length] using h
      have hszy : SegAt t.subtree_size (a + 1 + x.size) y.sizes := by
        have h := hsz.tail.right
        simpa [GTree.sizes_length] using h
      have hsplit : (List.range' a (GTree.bin v x y).size).reverse
          = ((List.range' (a + 1 + x.size) y.size).reverse
              ++ (List.range' (a + 1) x.size).reverse) ++ [a] := by
        have e1 : (GTree.bin v x y).size = 1 + (x.size + y.size) := by
          simp [GTree.size]; omega
        rw [e1, range'_split a 1 (x.size + y.size),
            range'_split (a + 1) x.size y.size]
        simp [List.reverse_append, Nat.add_assoc]
      rw [hsplit, sizeLoopAux_append, sizeLoopAux_append,
          ihy (a + 1 + x.size) stk htyy hszy]
      have hx1 := ihx (a + 1) ((y.size : ℤ) :: stk) hty.tail.left hsz.tail.left
      have e : ((1 + x.size + y.size : ℕ) : ℤ) = (x.size : ℤ) + (y.size : ℤ) + 1 := by
        push_cast; ring
      simp [hx1, sizeLoopAux, sizeStep, np_get_of_seg hty, np_get_of_seg hsz,
            GTree.size, e]
  | tern v x y z ihx ihy ihz =>
      intro a stk hty hsz
      simp only [GTree.types] at hty
      simp only [GTree.sizes] at hsz
      have hty' := hty.tail
      have hsz' := hsz.tail
      simp only [← List.append_assoc] at hty' hsz'
      have htyx : SegAt t.node_type (a + 1) x.types := hty'.left.left
      have hszx : SegAt t.subtree_size (a + 1) x.sizes := hsz'.left.left
      have htyy : SegAt t.node_type (a + 1 + x.size) y.types := by
        have h := hty'.left.right
        simpa [GTree.types_length] using h
      have hszy : SegAt t.subtree_size (a + 1 + x.size) y.sizes := by
        have h := hsz'.left.right
        simpa [GTree.sizes_length] using h
      have htyz : SegAt t.node_type (a + 1 + x.size + y.size) z.types := by
        have h := hty'.right
        have e : (x.types ++ y.types).length = x.size + y.size := by
          simp [GTree.types_length]
        rw [e] at h
        have e6 : a + 1 + (x.size + y.size) = a + 1 + x.size + y.size := by omega
        rw [e6] at h
        exact h
      have hszz : SegAt t.subtree_size (a + 1 + x.size + y.size) z.sizes := by
        have h := hsz'.right
        have e : (x.sizes ++ y.sizes).length = x.size + y.size := by
          simp [GTree.sizes_length]
        rw [e] at h
        have e6 : a + 1 + (x.size + y.size) = a + 1 + x.size + y.size := by omega
        rw [e6] at h
        exact h
      have hsplit : (List.range' a (GTree.tern v x y z).size).reverse
          = (((List.range' (a + 1 + x.size + y.size) z.size).reverse
              ++ (List.range' (a + 1 + x.size) y.size).reverse)
              ++ (List.range' (a + 1) x.size).reverse) ++ [a] := by
        have e1 : (GTree.tern v x y z).size = 1 + (x.size + (y.size + z.size)) := by
          simp [GTree.size]; omega
        rw [e1, range'_split a 1 (x.size + (y.size + z.size)),
            range'_split (a + 1) x.size (y.size + z.size),
            range'_split (a + 1 + x.size) y.size z.size]
        simp [List.reverse_append, Nat.add_assoc]
      rw [hsplit, sizeLoopAux_append, sizeLoopAux_append, sizeLoopAux_append,
          ihz (a + 1 + x.size + y.size) stk htyz hszz]
      have hy1 := ihy (a + 1 + x.size) ((z.size : ℤ) :: stk) htyy hszy
      have e : ((1 + x.size + y.size + z.size : ℕ) : ℤ)
          = (x.size : ℤ) + (y.size : ℤ) + (z.size : ℤ) + 1 := by
        push_cast; ring
      simp only [hy1]
      have hx1 := ihx (a + 1) ((y.size : ℤ) :: (z.size : ℤ) :: stk) htyx hszx
      simp [hx1, sizeLoopAux, sizeStep, np_get_of_seg hty, np_get_of_seg hsz,
            GTree.size, e]

theorem sizeLoop_corrupt (t : Tree) (p : ℕ) (w : ℤ) :
    ∀ T : GTree, ∀ a : ℕ,
      SegAt t.node_type a T.types → SegAt t.subtree_size a T.sizes →
      a ≤ p → p < a + T.size →
      T.sizes[p - a]? ≠ some w →
      ∀ stk, sizeLoopAux (setSize t p w) ((List.range' a T.size).reverse) stk
        = .error (.sizeMismatch p) := by
  intro T
  induction T with
  | cst c =>
      intro a hty hsz hap hps hne stk
      simp only [GTree.types] at hty
      simp only [GTree.sizes] at hsz
      simp only [GTree.sizes] at hne
      have hpa : p = a := by
        simp only [GTree.size] at hps
        omega
      subst hpa
      have hlt : p < t.subtree_size.length :=
        (List.getElem?_eq_some_iff.mp hsz.head).1
      have hstored : np_get (t.subtree_size.set p w) p = .ok w := by
        rw [np_get, List.getElem?_set_eq_of_lt w hlt]
      have hne1 : ¬ (w = (1 : ℤ)) := by
        simp only [Nat.sub_self, List.getElem?_cons_zero] at hne
        intro h
        exact hne (by rw [h])
      simp [GTree.size, sizeLoopAux, sizeStep, np_get_of_seg hty,
            hstored, hne1]
  | var k =>
      intro a hty hsz hap hps hne stk
      simp only [GTree.types] at hty
      simp only [GTree.sizes] at hsz
      simp only [GTree.sizes] at hne
      have hpa : p = a := by
        simp only [GTree.size] at hps
        omega
      subst hpa
      have hlt : p < t.subtree_size.length :=
        (List.getElem?_eq_some_iff.mp hsz.head).1
      have hstored : np_get (t.subtree_size.set p w) p = .ok w := by
        rw [np_get, List.getElem?_set_eq_of_lt w hlt]
      have hne1 : ¬ (w = (1 : ℤ)) := by
        simp only [Nat.sub_self, List.getElem?_cons_zero] at hne
        intro h
        exact hne (by rw [h])
      simp [GTree.size, sizeLoopAux, sizeStep, np_get_of_seg hty,
            hstored, hne1]
  | un v x ih =>
      intro a hty hsz hap hps hne stk
      simp only [GTree.types] at hty
      simp only [GTree.sizes] at hsz
      simp only [GTree.sizes] at hne
      have hsplit : (List.range' a (GTree.un v x).size).reverse
          = (List.range' (a + 1) x.size).reverse ++ [a] := by
        have e1 : (GTree.un v x).size = 1 + x.size := by simp [GTree.size]
        rw [e1, range'_split a 1 x.size]
        simp [List.reverse_append]
      rw [hsplit, sizeLoopAux_append]
      by_cases hpa : p = a
      · subst hpa
        have hchild := sizeLoop_seg (setSize t p w) x (p + 1) stk
          hty.tail (hsz.tail.set_outside (Or.inl (by omega)))
        have hlt : p < t.subtree_size.length :=
          (List.getElem?_eq_some_iff.mp hsz.head).1
        have hstored : np_get (t.subtree_size.set p w) p = .ok w := by
          rw [np_get, List.getElem?_set_eq_of_lt w hlt]
        have hne1 : ¬ (w = (x.size : ℤ) + 1) := by
          simp only [Nat.sub_self, List.getElem?_cons_zero] at hne
          intro h
          apply hne
          rw [h]
          congr 1
          push_cast
          ring
        simp [hchild, sizeLoopAux, sizeStep, np_get_of_seg hty, hstored, hne1]
      · have hap1 : a + 1 ≤ p := by omega
        have hps1 : p < a + 1 + x.size := by
          simp only [GTree.size] at hps
          omega
        have hne1 : x.sizes[p - (a + 1)]? ≠ some w := by
          have e : p - a = (p - (a + 1)) + 1 := by omega
          rw [e, List.getElem?_cons_succ] at hne
          exact hne
        simp [ih (a + 1) hty.tail hsz.tail hap1 hps1 hne1 stk]
  | bin v x y ihx ihy =>
      intro a hty hsz hap hps hne stk
      simp only [GTree.types] at hty
      simp only [GTree.sizes] at hsz
      simp only [GTree.sizes] at hne
      have htyy : SegAt t.node_type (a + 1 + x.size) y.types := by
        have h := hty.tail.right
        simpa [GTree.types_length] using h
      have hszy : SegAt t.subtree_size (a + 1 + x.size) y.sizes := by
        have h := hsz.tail.right
        simpa [GTree.sizes_length] using h
      have hsplit : (List.range' a (GTree.bin v x y).size).reverse
          = ((List.range' (a + 1 + x.size) y.size).reverse
              ++ (List.range' (a + 1) x.size).reverse) ++ [a] := by
        have e1 : (GTree.bin v x y).size = 1 + (x.size + y.size) := by
          simp [GTree.size]; omega
        rw [e1, range'_split a 1 (x.size + y.size),
            range'_split (a + 1) x.size y.size]
        simp [List.reverse_append, Nat.add_assoc]
      rw [hsplit, sizeLoopAux_append, sizeLoopAux_append]
      by_cases hpy : a + 1 + x.size ≤ p
      · have hpsy : p < a + 1 + x.size + y.size := by
          simp only [GTree.size] at hps
          omega
        have hney : y.sizes[p - (a + 1 + x.size)]? ≠ some w := by
          have e : p - a = (x.size + (p - (a + 1 + x.size))) + 1 := by omega
          rw [e, List.getElem?_cons_succ] at hne
          rw [List.getElem?_append_right
                (by simp only [GTree.sizes_length]; omega)] at hne
          simpa [GTree.sizes_length] using hne
        simp [ihy (a + 1 + x.size) htyy hszy hpy hpsy hney stk]
      · by_cases hpx : a + 1 ≤ p
        · have hcy := sizeLoop_seg (setSize t p w) y (a + 1 + x.size) stk
            htyy (hszy.set_outside (Or.inl (by omega)))
          have hpsx : p < a + 1 + x.size := by omega
          have hnex : x.sizes[p - (a + 1)]? ≠ some w := by
            have e : p - a = (p - (a + 1)) + 1 := by omega
            rw [e, List.getElem?_cons_succ] at hne
            rw [List.getElem?_append_left
                  (by simp only [GTree.sizes_length]; omega)] at hne
            exact hne
          simp [hcy, ihx (a + 1) hty.tail.left hsz.tail.left hpx hpsx hnex
                  ((y.size : ℤ) :: stk)]
        · have hpa : p = a := by omega
          subst hpa
          have hcy := sizeLoop_seg (setSize t p w) y (p + 1 + x.size) stk
            htyy (hszy.set_outside (Or.inl (by omega)))
          have hcx := sizeLoop_seg (setSize t p w) x (p + 1)
            ((y.size : ℤ) :: stk) hty.tail.left
            (hsz.tail.left.set_outside (Or.inl (by omega)))
          have hlt : p < t.subtree_size.length :=
            (List.getElem?_eq_some_iff.mp hsz.head).1
          have hstored : np_get (t.subtree_size.set p w) p = .ok w := by
            rw [np_get, List.getElem?_set_eq_of_lt w hlt]
          have hne1 : ¬ (w = (x.size : ℤ) + (y.size : ℤ) + 1) := by
            simp only [Nat.sub_self, List.getElem?_cons_zero] at hne
            intro h
            apply hne
            rw [h]
            congr 1
            push_cast
            ring
          simp [hcy, hcx, sizeLoopAux, sizeStep, np_get_of_seg hty,
                hstored, hne1]
  | tern v x y z ihx ihy ihz =>
      intro a hty hsz hap hps hne stk
      simp only [GTree.types] at hty
      simp only [GTree.sizes] at hsz
      simp only [GTree.sizes] at hne
      have hty' := hty.tail
      have hsz' := hsz.tail
      simp only [← List.append_assoc] at hty' hsz'
      have htyx : SegAt t.node_type (a + 1) x.types := hty'.left.left
      have hszx : SegAt t.subtree_size (a + 1) x.sizes := hsz'.left.left
      have htyy : SegAt t.node_type (a + 1 + x.size) y.types := by
        have h := hty'.left.right
        simpa [GTree.types_length] using h
      have hszy : SegAt t.subtree_size (a + 1 + x.size) y.sizes := by
        have h := hsz'.left.right
        simpa [GTree.sizes_length] using h
      have htyz : SegAt t.node_type (a + 1 + x.size + y.size) z.types := by
        have h := hty'.right
        have e : (x.types ++ y.types).length = x.size + y.size := by
          simp [GTree.types_length]
        rw [e] at h
        have e6 : a + 1 + (x.size + y.size) = a + 1 + x.size + y.size := by omega
        rw [e6] at h
        exact h
      have hszz : SegAt t.subtree_size (a + 1 + x.size + y.size) z.sizes := by
        have h := hsz'.right
        have e : (x.sizes ++ y.sizes).length = x.size + y.size := by
          simp [GTree.sizes_length]
        rw [e] at h
        have e6 : a + 1 + (x.size + y.size) = a + 1 + x.size + y.size := by omega
        rw [e6] at h
        exact h
      have hsplit : (List.range' a (GTree.tern v x y z).size).reverse
          = (((List.range' (a + 1 + x.size + y.size) z.size).reverse
              ++ (List.range' (a + 1 + x.size) y.size).reverse)
              ++ (List.range' (a + 1) x.size).reverse) ++ [a] := by
        have e1 : (GTree.tern v x y z).size = 1 + (x.size + (y.size + z.size)) := by
          simp [GTree.size]; omega
        rw [e1, range'_split a 1 (x.size + (y.size + z.size)),
            range'_split (a + 1) x.size (y.size + z.size),
            range'_split (a + 1 + x.size) y.size z.size]
        simp [List.reverse_append, Nat.add_assoc]
      rw [hsplit, sizeLoopAux_append, sizeLoopAux_append, sizeLoopAux_append]
      by_cases hpz : a + 1 + x.size + y.size ≤ p
      · have hpsz : p < a + 1 + x.size + y.size + z.size := by
          simp only [GTree.size] at hps
          omega
        have hnez : z.sizes[p - (a + 1 + x.size + y.size)]? ≠ some w := by
          have e : p - a = ((x.size + y.size) + (p - (a + 1 + x.size + y.size))) + 1 := by
            omega
          rw [e, List.getElem?_cons_succ] at hne
          rw [List.getElem?_append_right
                (by simp only [List.length_append, GTree.sizes_length]; omega)] at hne
          simpa [GTree.sizes_length] using hne
        simp [ihz (a + 1 + x.size + y.size) htyz hszz hpz hpsz hnez stk]
      · have hcz := sizeLoop_seg (setSize t p w) z (a + 1 + x.size + y.size) stk
          htyz (hszz.set_outside (Or.inl (by omega)))
        by_cases hpy : a + 1 + x.size ≤ p
        · have hpsy : p < a + 1 + x.size + y.size := by omega
          have hney : y.sizes[p - (a + 1 + x.size)]? ≠ some w := by
            have e : p - a = (x.size + (p - (a + 1 + x.size))) + 1 := by omega
            rw [e, List.getElem?_cons_succ] at hne
            rw [List.getElem?_append_left
                  (by simp only [List.length_append, GTree.sizes_length]; omega)] at hne
            rw [List.getElem?_append_right
                  (by simp only [GTree.sizes_length]; omega)] at hne
            simpa [GTree.sizes_length] using hne
          simp [hcz, ihy (a + 1 + x.size) htyy hszy hpy hpsy hney
                  ((z.size : ℤ) :: stk)]
        · have hcy := sizeLoop_seg (setSize t p w) y (a + 1 + x.size)
            ((z.size : ℤ) :: stk) htyy (hszy.set_outside (Or.inl (by omega)))
          by_cases hpx : a + 1 ≤ p
          · have hpsx : p < a + 1 + x.size := by omega
            have hnex : x.sizes[p - (a + 1)]? ≠ some w := by
              have e : p - a = (p - (a + 1)) + 1 := by omega
              rw [e, List.getElem?_cons_succ] at hne
              rw [List.getElem?_append_left
                    (by simp only [List.length_append, GTree.sizes_length]; omega)] at hne
              rw [List.getElem?_append_left
                    (by simp only [GTree.sizes_length]; omega)] at hne
              exact hne
            simp [hcz, hcy, ihx (a + 1) htyx hszx hpx hpsx hnex
                    ((y.size : ℤ) :: (z.size : ℤ) :: stk)]
          · have hpa : p = a := by omega
            subst hpa
            have hcx := sizeLoop_seg (setSize t p w) x (p + 1)
              ((y.size : ℤ) :: (z.size : ℤ) :: stk) htyx
              (hszx.set_outside (Or.inl (by omega)))
            have hlt : p < t.subtree_size.length :=
              (List.getElem?_eq_some_iff.mp hsz.head).1
            have hstored : np_get (t.subtree_size.set p w) p = .ok w := by
              rw [np_get, List.getElem?_set_eq_of_lt w hlt]
            have hne1 : ¬ (w = (x.size : ℤ) + (y.size : ℤ) + (z.size : ℤ) + 1) := by
              simp only [Nat.sub_self, List.getElem?_cons_zero] at hne
              intro h
              apply hne
              rw [h]
              congr 1
              push_cast
              ring
            simp [hcz, hcy, hcx, sizeLoopAux, sizeStep, np_get_of_seg hty,
                  hstored, hne1]

/-! ## Whole-function lemmas -/

theorem np_get_subtree_size_zero (t : Tree) (T : GTree) (hE : Encodes t T) :
    np_get t.subtree_size 0 = .ok ((T.size : ℕ) : ℤ) := by
  obtain ⟨_, _, _, _, _, hsz⟩ := hE
  have hseg : SegAt t.subtree_size 0 T.sizes := SegAt.of_take hsz
  have h0 := hseg 0 (by simp)
  simp only [Nat.add_zero] at h0
  rw [np_get, h0, GTree.sizes_head]

theorem python_forward_encodes (t : Tree) (T : GTree) (inputs : List ℚ)
    (hE : Encodes t T) (hA : T.arith t.input_len = true)
    (hout : t.output_len = 1) (hlen : (inputs.length : ℤ) = t.input_len) :
    python_forward t inputs = .ok (T.gval inputs) := by
  have hs0 := np_get_subtree_size_zero t T hE
  obtain ⟨hle, hltn, hlsn, hty, hv, hsz⟩ := hE
  have hA1 : T.arith (inputs.length : ℤ) = true := by rw [hlen]; exact hA
  have heval := evalLoop_seg t inputs T hA1 0 [] (SegAt.of_take hty)
    (SegAt.of_take hv)
  rw [python_forward, if_pos hlen, if_pos hout]
  simp only [hs0, Int.toNat_natCast, descRange_eq_revRange', heval]

theorem evalLoopAux_setSize (t : Tree) (p : ℕ) (w : ℤ) (inputs : List ℚ) :
    ∀ (l : List ℕ) (stk : List ℚ),
      evalLoopAux (setSize t p w) inputs l stk = evalLoopAux t inputs l stk := by
  intro l
  induction l with
  | nil => intro stk; rfl
  | cons i rest ih =>
      intro stk
      rw [evalLoopAux, evalLoopAux]
      have hstep : evalStep (setSize t p w) inputs i stk = evalStep t inputs i stk := rfl
      rw [hstep]
      cases evalStep t inputs i stk <;> simp [ih]

theorem python_forward_setSize (t : Tree) (p : ℕ) (w : ℤ) (hp : p ≠ 0)
    (inputs : List ℚ) :
    python_forward (setSize t p w) inputs = python_forward t inputs := by
  rw [python_forward, python_forward]
  simp only [setSize_input_len, setSize_output_len, setSize_subtree_size]
  have hget : np_get (t.subtree_size.set p w) 0 = np_get t.subtree_size 0 := by
    rw [np_get, np_get, List.getElem?_set_ne (by omega)]
  rw [hget]
  cases np_get t.subtree_size 0 <;>
    simp [evalLoopAux_setSize]

theorem assert_valid_encodes (t : Tree) (T : GTree)
    (hE : Encodes t T) (hA : T.arith t.input_len = true)
    (hil : 0 ≤ t.input_len) (hout : t.output_len = 1) :
    assert_valid t = .ok () := by
  have hdlen : ((List.replicate t.input_len.toNat (0 : ℚ)).length : ℤ)
      = t.input_len := by
    simp [Int.toNat_of_nonneg hil]
  have hfwd := python_forward_encodes t T (List.replicate t.input_len.toNat 0)
    hE hA hout hdlen
  have hs0 := np_get_subtree_size_zero t T hE
  obtain ⟨hle, hltn, hlsn, hty, hv, hsz⟩ := hE
  have hspan := spanWalk_seg t.node_type T 0 0 (SegAt.of_take hty)
  have hsize := sizeLoop_seg t T 0 [] (SegAt.of_take hty) (SegAt.of_take hsz)
  rw [assert_valid, hfwd]
  simp [hspan, hs0, hsize, descRange_eq_revRange']

theorem assert_valid_corrupt (t : Tree) (T : GTree)
    (hE : Encodes t T) (hA : T.arith t.input_len = true)
    (hil : 0 ≤ t.input_len) (hout : t.output_len = 1)
    (i : ℕ) (w : ℤ) (hi0 : 0 < i) (his : i < T.size)
    (hw : T.sizes[i]? ≠ some w) :
    assert_valid (setSize t i w) = .error (.sizeMismatch i) := by
  have hdlen : ((List.replicate t.input_len.toNat (0 : ℚ)).length : ℤ)
      = t.input_len := by
    simp [Int.toNat_of_nonneg hil]
  have hfwd := python_forward_encodes t T (List.replicate t.input_len.toNat 0)
    hE hA hout hdlen
  have hs0 := np_get_subtree_size_zero t T hE
  obtain ⟨hle, hltn, hlsn, hty, hv, hsz⟩ := hE
  have hspan := spanWalk_seg t.node_type T 0 0 (SegAt.of_take hty)
  have hcorr := sizeLoop_corrupt t i w T 0 (SegAt.of_take hty)
    (SegAt.of_take hsz) (Nat.zero_le i) (by omega)
    (by simpa using hw) []
  rw [assert_valid]
  simp only [setSize_input_len, setSize_node_type, setSize_subtree_size]
  rw [python_forward_setSize t i w (by omega), hfwd]
  have hget : np_get (t.subtree_size.set i w) 0 = np_get t.subtree_size 0 := by
    rw [np_get, np_get, List.getElem?_set_ne (by omega)]
  simp [hspan, hget, hs0, descRange_eq_revRange', hcorr]

/-! ## Reads-only-within-the-span agreement lemmas -/

theorem evalStep_agree (t1 t2 : Tree) (inputs : List ℚ) (n : ℕ)
    (hty : ∀ j, j < n → t1.node_type[j]? = t2.node_type[j]?)
    (hv : ∀ j, j < n → t1.node_value[j]? = t2.node_value[j]?)
    (i : ℕ) (hi : i < n) (stk : List ℚ) :
    evalStep t1 inputs i stk = evalStep t2 inputs i stk := by
  rw [evalStep, evalStep]
  have h2 : np_get t1.node_type i = np_get t2.node_type i := by
    rw [np_get, np_get, hty i hi]
  rw [h2]
  cases np_get t2.node_type i with
  | error e => rfl
  | ok ty =>
      have h3 : np_get t1.node_value i = np_get t2.node_value i := by
        rw [np_get, np_get, hv i hi]
      cases ty <;> simp [h3]

theorem evalLoopAux_agree (t1 t2 : Tree) (inputs : List ℚ) (n : ℕ)
    (hty : ∀ j, j < n → t1.node_type[j]? = t2.node_type[j]?)
    (hv : ∀ j, j < n → t1.node_value[j]? = t2.node_value[j]?) :
    ∀ (idxs : List ℕ), (∀ i ∈ idxs, i < n) → ∀ stk,
      evalLoopAux t1 inputs idxs stk = evalLoopAux t2 inputs idxs stk := by
  intro idxs
  induction idxs with
  | nil => intro _ stk; rfl
  | cons i rest ih =>
      intro hall stk
      rw [evalLoopAux, evalLoopAux,
          evalStep_agree t1 t2 inputs n hty hv i (hall i (by simp)) stk]
      cases evalStep t2 inputs i stk with
      | error e => rfl
      | ok stk1 => exact ih (fun j hj => hall j (by simp [hj])) stk1

theorem strStep_agree (t1 t2 : Tree) (n : ℕ)
    (hty : ∀ j, j < n → t1.node_type[j]? = t2.node_type[j]?)
    (hv : ∀ j, j < n → t1.node_value[j]? = t2.node_value[j]?)
    (i : ℕ) (hi : i < n) :
    strStep t1 i = strStep t2 i := by
  rw [strStep, strStep]
  have h2 : np_get t1.node_type i = np_get t2.node_type i := by
    rw [np_get, np_get, hty i hi]
  rw [h2]
  cases np_get t2.node_type i with
  | error e => rfl
  | ok ty =>
      have h3 : np_get t1.node_value i = np_get t2.node_value i := by
        rw [np_get, np_get, hv i hi]
      rw [h3]

theorem strLoopAux_agree (t1 t2 : Tree) (n : ℕ)
    (hty : ∀ j, j < n → t1.node_type[j]? = t2.node_type[j]?)
    (hv : ∀ j, j < n → t1.node_value[j]? = t2.node_value[j]?) :
    ∀ (idxs : List ℕ), (∀ i ∈ idxs, i < n) → ∀ acc,
      strLoopAux t1 idxs acc = strLoopAux t2 idxs acc := by
  intro idxs
  induction idxs with
  | nil => intro _ acc; rfl
  | cons i rest ih =>
      intro hall acc
      rw [strLoopAux, strLoopAux,
          strStep_agree t1 t2 n hty hv i (hall i (by simp))]
      cases strStep t2 i with
      | error e => rfl
      | ok piece => exact ih (fun j hj => hall j (by simp [hj])) _

theorem take_agree_getElem {l1 l2 : List α} {n : ℕ}
    (h : l1.take n = l2.take n) : ∀ j, j < n → l1[j]? = l2[j]? := by
  intro j hj
  rw [← List.getElem?_take_of_lt (l := l1) hj, h, List.getElem?_take_of_lt hj]

/-! ## Rendering lemmas for the infix serializer -/

theorem zip_reverse {l1 : List α} {l2 : List β} (h : l1.length = l2.length) :
    l1.reverse.zip l2.reverse = (l1.zip l2).reverse := by
  induction l1 generalizing l2 with
  | nil => cases l2 <;> simp_all
  | cons a l1 ih =>
      cases l2 with
      | nil => simp at h
      | cons b l2 =>
          simp only [List.length_cons, Nat.succ.injEq] at h
          simp only [List.reverse_cons]
          rw [List.zip_append (by simp [h]), ih h]
          simp

theorem renderStep_arith (v : ℚ)
    (hv : v = Func.ADD ∨ v = Func.SUB ∨ v = Func.MUL ∨ v = Func.DIV)
    (a b : String) (stk : List String) :
    ∃ s, renderStep .BFUNC v (a :: b :: stk) = .ok (s :: stk) := by
  rcases hv with h | h | h | h <;> subst h <;> exact ⟨_, rfl⟩

theorem renderLoop_encodes (il : ℤ) :
    ∀ T : GTree, T.arith il = true →
    ∀ stk : List String,
      ∃ s, renderLoopAux ((T.types.zip T.vals).reverse) stk = .ok (s :: stk) := by
  intro T
  induction T with
  | cst c =>
      intro _ stk
      exact ⟨fmt2 c, by simp [GTree.types, GTree.vals, renderLoopAux, renderStep]⟩
  | var k =>
      intro _ stk
      exact ⟨"x[" ++ toString (pyInt (k : ℚ)) ++ "]",
        by simp [GTree.types, GTree.vals, renderLoopAux, renderStep]⟩
  | un v x ih =>
      intro hA stk
      simp [GTree.arith] at hA
  | tern v x y z ihx ihy ihz =>
      intro hA stk
      simp [GTree.arith] at hA
  | bin v x y ihx ihy =>
      intro hA stk
      simp only [GTree.arith, Bool.and_eq_true, Bool.or_eq_true,
                 decide_eq_true_eq] at hA
      obtain ⟨⟨hop, hax⟩, hay⟩ := hA
      have hvor : v = Func.ADD ∨ v = Func.SUB ∨ v = Func.MUL ∨ v = Func.DIV := by
        tauto
      have hzipsplit : (GTree.bin v x y).types.zip (GTree.bin v x y).vals
          = (NType.BFUNC, v) :: ((x.types.zip x.vals) ++ (y.types.zip y.vals)) := by
        simp only [GTree.types, GTree.vals, List.zip_cons_cons]
        rw [List.zip_append (by simp)]
      rw [hzipsplit, List.reverse_cons, List.reverse_append]
      obtain ⟨sy, hy⟩ := ihy hay stk
      obtain ⟨sx, hx⟩ := ihx hax (sy :: stk)
      obtain ⟨sr, hr⟩ := renderStep_arith v hvor sx sy stk
      refine ⟨sr, ?_⟩
      rw [List.append_assoc, renderLoopAux_append, hy]
      simp only [renderLoopAux_append, hx]
      simp [renderLoopAux, hr]

theorem serializer_encodes (t : Tree) (T : GTree)
    (hE : Encodes t T) (hA : T.arith t.input_len = true) :
    ∃ s, to_infix t = (decide (t.output_len ≠ 1), .ok s) := by
  obtain ⟨hle, hltn, hlsn, hty, hv, hsz⟩ := hE
  have hseg : SegAt t.subtree_size 0 T.sizes := SegAt.of_take hsz
  have h0 : t.subtree_size[0]? = some ((T.size : ℕ) : ℤ) := by
    have h1 := hseg 0 (by simp)
    simp only [Nat.add_zero] at h1
    rw [h1, GTree.sizes_head]
  have hslt : pySlice t.node_type ((T.size : ℕ) : ℤ) = T.types := by
    rw [pySlice, if_pos (by positivity)]
    simpa [Int.toNat_natCast] using hty
  have hslv : pySlice t.node_value ((T.size : ℕ) : ℤ) = T.vals := by
    rw [pySlice, if_pos (by positivity)]
    simpa [Int.toNat_natCast] using hv
  have hzip : T.types.reverse.zip T.vals.reverse = (T.types.zip T.vals).reverse :=
    zip_reverse (by simp)
  obtain ⟨s, hs⟩ := renderLoop_encodes t.input_len T hA []
  exact ⟨s, by simp [ to_infix, np_get, h0, hslt, hslv, hzip, hs]⟩

/-! ## Oversized stored root span (claim C2) -/

theorem python_forward_span_overflow (t : Tree) (s0 : ℤ)
    (hlen : t.node_type.length = t.node_value.length)
    (h0 : t.subtree_size[0]? = some s0)
    (hgt : (t.gp_len : ℤ) < s0) :
    ∃ e, ∀ inputs : List ℚ, python_forward t inputs = .error e ∨
      python_forward t inputs = .error .indexError := by
  exact ⟨.assertionError, fun inputs => by
    rw [python_forward]
    by_cases h1 : ((inputs.length : ℕ) : ℤ) = t.input_len
    · rw [if_pos h1]
      by_cases h2 : t.output_len = 1
      · rw [if_pos h2]
        right
        have hs : np_get t.subtree_size 0 = .ok s0 := by rw [np_get, h0]
        simp only [hs]
        simp only [Tree.gp_len] at hgt
        have hpos : 1 ≤ s0.toNat := by omega
        obtain ⟨m, hm⟩ : ∃ m, s0.toNat = m + 1 := ⟨s0.toNat - 1, by omega⟩
        rw [hm, descRange_succ]
        have hmlen : t.node_type.length ≤ m := by
          rw [hlen]
          omega
        rw [evalLoopAux, evalStep, np_get, List.getElem?_eq_none hmlen]
      · rw [if_neg h2]
        left
        rfl
    · rw [if_neg h1]
      left
      rfl⟩

theorem assert_valid_span_overflow (t : Tree) (s0 : ℤ)
    (hlen : t.node_type.length = t.node_value.length)
    (h0 : t.subtree_size[0]? = some s0)
    (hgt : (t.gp_len : ℤ) < s0) :
    ∃ e, assert_valid t = .error (.evalError e) := by
  obtain ⟨e, he⟩ := python_forward_span_overflow t s0 hlen h0 hgt
  rcases he (List.replicate t.input_len.toNat 0) with h | h
  · exact ⟨e, by rw [assert_valid, h]⟩
  · exact ⟨.indexError, by rw [assert_valid, h]⟩

/-! ## Concrete trees used by the claim theorems -/

/-- The gp_len = 3 single-ADD tree over `x[0]` (slot 1) and `x[1]`
(slot 2), `input_len = 2`. -/
def addT : Tree := ⟨2, 1, [1, 0, 1], [.BFUNC, .VAR, .VAR], [3, 1, 1]⟩

/-- The same tree with the `SUB` opcode. -/
def subT : Tree := ⟨2, 1, [2, 0, 1], [.BFUNC, .VAR, .VAR], [3, 1, 1]⟩

/-- A three-slot tree with a root function node of kind `ty` and opcode
`v` over two constant children: `r` at slot 1 (pushed last, popped first),
`l` at slot 2. -/
def mkFun (ty : NType) (v r l : ℚ) : Tree :=
  ⟨0, 1, [v, r, l], [ty, .CONST, .CONST], [3, 1, 1]⟩

theorem python_forward_mkFun (ty : NType)
    (hty : ty = .UFUNC ∨ ty = .BFUNC ∨ ty = .TFUNC) (v r l : ℚ) :
    python_forward (mkFun ty v r l) [] = applyFunc v l r := by
  have hdr : descRange (Int.toNat 3) = [2, 1, 0] := by decide
  rcases hty with h | h | h <;> subst h <;>
    cases happ : applyFunc v l r <;>
      simp [python_forward, mkFun, hdr, evalLoopAux, evalStep, np_get,
            pyPop, happ]

/-! ## Claim theorems -/

/-- C1 (code evaluation at the failing input): `to_infix` prints the
FIRST-popped operand string on the left of the operator.  For the SUB
tree whose slot-1 child (the interpreter's right operand) is `x[0]` and
whose slot-2 child (left operand) is `x[1]`, the rendering is
`(x[0] - x[1])`, while the interpreter computes `x[1] - x[0] = 1` at
inputs `[2, 3]`; the claim's second-popped-left rule would have rendered
`(x[1] - x[0])`.  The literal array `[ADD, 0, 1]` does render
`(x[0] + x[1])`. -/
theorem c1_operand_order_eval :
    to_infix subT = (false, .ok "(x[0] - x[1])") ∧
    python_forward subT [2, 3] = .ok 1 ∧
    to_infix addT = (false, .ok "(x[0] + x[1])") := by
  refine ⟨by decide, ?_, by decide⟩
  have hdr : descRange (Int.toNat 3) = [2, 1, 0] := by decide
  norm_num [python_forward, subT, hdr, evalLoopAux, evalStep, np_get,
            np_get_i, pyPop, applyFunc, Func.ADD, Func.SUB, Func.MUL,
            Func.DIV, pyInt]

/-- C2 (amended): a stored root span `subtree_size[0]` strictly larger
than `gp_len` does make `assert_valid` fail, but with an error raised by
the `python_forward` smoke test — which runs FIRST — wrapped as an
evaluation error; the recomputed-span `MalformedSpan` check is never
reached. -/
theorem c2_span_overflow_fails_in_smoke_test (t : Tree) (s0 : ℤ)
    (hlen : t.node_type.length = t.node_value.length)
    (h0 : t.subtree_size[0]? = some s0)
    (hgt : (t.gp_len : ℤ) < s0) :
    ∃ e, assert_valid t = .error (.evalError e) :=
  assert_valid_span_overflow t s0 hlen h0 hgt

/-- C2 (witness): the single-constant tree with stored span 2 and
`gp_len = 1`. -/
theorem c2_witness :
    ∃ e, assert_valid ⟨0, 1, [0], [.CONST], [2]⟩ = .error (.evalError e) :=
  c2_span_overflow_fails_in_smoke_test ⟨0, 1, [0], [.CONST], [2]⟩ 2
    rfl rfl (by decide)

/-- C2 (counterexample to the claim as stated): on the gp_len = 1 tree
with stored span 2, `assert_valid` fails with the wrapped IndexError of
the evaluation smoke test — evaluation IS attempted first — and not with
`MalformedSpan`. -/
theorem c2_counterexample :
    assert_valid ⟨0, 1, [0], [.CONST], [2]⟩ = .error (.evalError .indexError) ∧
    (Except.error (VErr.evalError .indexError) : Except VErr Unit)
      ≠ .error .malformedSpan := by
  decide

/-- C3: protected division.  `mkFun .BFUNC Func.DIV r l` places `r` in
slot 1, so `r` is popped first (the right operand) and `l` second (the
left operand).  A right operand within the `allclose` tolerance of zero
makes the whole evaluation return exactly the left operand; otherwise it
returns `l / r`. -/
theorem c3_div_protected (l r : ℚ) :
    (|r| ≤ 1 / 100000000 →
      python_forward (mkFun .BFUNC Func.DIV r l) [] = .ok l) ∧
    (1 / 100000000 < |r| →
      python_forward (mkFun .BFUNC Func.DIV r l) [] = .ok (l / r)) := by
  have hbase := python_forward_mkFun .BFUNC (by tauto) Func.DIV r l
  constructor
  · intro htol
    have hclose : np_allclose r 0 = true := by
      simp [np_allclose]
      linarith [abs_nonneg r]
    rw [hbase]
    norm_num [applyFunc, Func.ADD, Func.SUB, Func.MUL, Func.DIV, hclose]
  · intro htol
    have hclose : np_allclose r 0 = false := by
      simp [np_allclose]
      linarith
    rw [hbase]
    norm_num [applyFunc, Func.ADD, Func.SUB, Func.MUL, Func.DIV, hclose]

/-- C3 (witness): division by an exactly-zero right operand returns the
left operand 5; right operand 2 returns 5/2. -/
theorem c3_witness :
    python_forward (mkFun .BFUNC Func.DIV 0 5) [] = .ok 5 ∧
    python_forward (mkFun .BFUNC Func.DIV 2 5) [] = .ok (5 / 2) :=
  ⟨(c3_div_protected 5 0).1 (by norm_num),
   (c3_div_protected 5 2).2 (by norm_num)⟩

/-- C4: binary pop order.  The slot-1 operand (`rOp`, pushed last) is
popped first and becomes `applyFunc`'s `right` argument; the slot-2
operand (`lOp`) is popped second and becomes `left`; `SUB` computes
`left - right`; and the single-ADD tree over `x[0]`/`x[1]` evaluates to
`5` at inputs `[2, 3]`. -/
theorem c4_pop_order :
    (∀ v rOp lOp : ℚ,
      python_forward (mkFun .BFUNC v rOp lOp) [] = applyFunc v lOp rOp) ∧
    (∀ l r : ℚ, applyFunc Func.SUB l r = .ok (l - r)) ∧
    python_forward addT [2, 3] = .ok 5 := by
  refine ⟨fun v rOp lOp => python_forward_mkFun .BFUNC (by tauto) v rOp lOp,
          fun l r => ?_, ?_⟩
  · norm_num [applyFunc, Func.ADD, Func.SUB]
  · have hdr : descRange (Int.toNat 3) = [2, 1, 0] := by decide
    norm_num [python_forward, addT, hdr, evalLoopAux, evalStep, np_get,
              np_get_i, pyPop, applyFunc, Func.ADD, Func.SUB, Func.MUL,
              Func.DIV, pyInt]

/-- C5 (amended): the reference interpreter has no unary/ternary support:
a function node of ANY kind (`UFUNC`, `BFUNC`, `TFUNC`) is processed by
the single binary branch — it pops exactly two operands — and every
opcode other than `ADD`/`SUB`/`MUL`/`DIV` (in particular the
trigonometric ones) ends in `NotImplementedError`. -/
theorem c5_no_unary_support (ty : NType)
    (hty : ty = .UFUNC ∨ ty = .BFUNC ∨ ty = .TFUNC) :
    (∀ v rOp lOp : ℚ,
      python_forward (mkFun ty v rOp lOp) [] = applyFunc v lOp rOp) ∧
    (∀ u a b : ℚ,
      u ∉ ([Func.ADD, Func.SUB, Func.MUL, Func.DIV] : List ℚ) →
      applyFunc u a b = .error .notImplementedError) := by
  refine ⟨fun v rOp lOp => python_forward_mkFun ty hty v rOp lOp,
          fun u a b hu => ?_⟩
  simp only [List.mem_cons, List.not_mem_nil, or_false, not_or] at hu
  obtain ⟨h1, h2, h3, h4⟩ := hu
  simp [applyFunc, h1, h2, h3, h4]

/-- C5 (witness): a `UFUNC` node carrying the SIN opcode over two
available operands pops both and raises `NotImplementedError`. -/
theorem c5_witness :
    python_forward (mkFun .UFUNC Func.SIN 1 7) [] = .error .notImplementedError := by
  have h := (c5_no_unary_support .UFUNC (Or.inl rfl)).1 Func.SIN 1 7
  rw [h]
  exact (c5_no_unary_support .UFUNC (Or.inl rfl)).2 Func.SIN 7 1 (by decide)

/-- C5 (counterexample to the claim as stated): the claim predicts a SIN
`UFUNC` node pops ONE operand and pushes its sine.  Instead: over two
available constants it pops two and raises `NotImplementedError`; encoded
as a proper unary tree `sin(1)` (gp_len = 2) it still pops two and dies
popping from a singleton stack. -/
theorem c5_counterexample :
    python_forward (mkFun .UFUNC Func.SIN 1 7) [] = .error .notImplementedError ∧
    python_forward ⟨0, 1, [Func.SIN, 1], [.UFUNC, .CONST], [2, 1]⟩ []
      = .error .popEmpty := by
  decide

/-- C6 (amended): for a tree whose root span encodes a well-formed
expression over the implemented opcodes with in-range variables
(`Encodes`/`arith`), with `output_len = 1` and non-negative `input_len`,
`assert_valid` succeeds; and flipping one stored `subtree_size` entry at
any index `i` with `0 < i < span` to a different value makes
`assert_valid` fail with `SizeMismatch` at exactly that index.  (At
`i = 0` the failure surfaces in the smoke test instead — see the
counterexample.) -/
theorem c6_validator (t : Tree) (T : GTree)
    (hE : Encodes t T) (hA : T.arith t.input_len = true)
    (hil : 0 ≤ t.input_len) (hout : t.output_len = 1) :
    assert_valid t = .ok () ∧
    (∀ (i : ℕ) (z w : ℤ), 0 < i → i < T.size →
      t.subtree_size[i]? = some z → w ≠ z →
      assert_valid (setSize t i w) = .error (.sizeMismatch i)) := by
  refine ⟨assert_valid_encodes t T hE hA hil hout,
          fun i z w hi0 his hz hw => ?_⟩
  apply assert_valid_corrupt t T hE hA hil hout i w hi0 his
  obtain ⟨hle, hltn, hlsn, hty, hv, hsz⟩ := hE
  have hzs : T.sizes[i]? = some z := by
    rw [← hsz, List.getElem?_take_of_lt his, hz]
  rw [hzs]
  simp [Ne.symm hw]

/-- C6 (witness): the valid single-ADD tree passes `assert_valid`, and
corrupting `subtree_size[1]` from 1 to 5 fails with `SizeMismatch 1`. -/
theorem c6_witness :
    assert_valid addT = .ok () ∧
    assert_valid (setSize addT 1 5) = .error (.sizeMismatch 1) := by
  have h := c6_validator addT
    (GTree.bin Func.ADD (GTree.var 0) (GTree.var 1))
    (by decide) (by decide) (by decide) (by decide)
  exact ⟨h.1, h.2 1 1 5 (by decide) (by decide) (by decide) (by decide)⟩

/-- C6 (counterexample to the claim as stated): corrupting the entry at
index 0 (root span 3 → 2 on the valid single-ADD tree) does NOT fail with
`SizeMismatch` at index 0: the truncated span makes the smoke-test
evaluation pop from an empty stack first. -/
theorem c6_counterexample :
    assert_valid (setSize addT 0 2) = .error (.evalError .popEmpty) ∧
    (Except.error (VErr.evalError .popEmpty) : Except VErr Unit)
      ≠ .error (.sizeMismatch 0) := by
  decide

/-- C7 (amended): construction succeeds exactly when `node_type` and
`subtree_size` have the same length as `node_value` (whose length defines
`gp_len`); `input_len` and `output_len` are never inspected, so
non-positive values are accepted. -/
theorem c7_init_shape_only (il ol : ℤ) (nv : List ℚ) (nt : List NType)
    (ss : List ℤ) :
    (tree_init il ol nv nt ss).isOk = true
      ↔ (nt.length = nv.length ∧ ss.length = nv.length) := by
  rw [tree_init]
  by_cases h1 : nt.length = nv.length <;>
    by_cases h2 : ss.length = nv.length <;>
      simp [h1, h2, Except.isOk, Except.toBool]

/-- C7 (counterexample to the claim as stated): construction with
`input_len = 0` and `output_len = 0` succeeds and yields a Tree. -/
theorem c7_counterexample :
    tree_init 0 0 [0] [.CONST] [1] = .ok ⟨0, 0, [0], [.CONST], [1]⟩ := by
  decide

/-- C8: evaluation and both serializers never read past the root span.
Two trees agreeing on `input_len`, `output_len` and on the first
`subtree_size[0]` entries of all three arrays (the root span), with
arbitrary differences in the padding, produce identical results from
`python_forward`, `__str__` and `to_infix`. -/
theorem c8_padding_never_read (t1 t2 : Tree) (inputs : List ℚ) (s0 : ℤ)
    (h1 : t1.subtree_size[0]? = some s0) (h2 : t2.subtree_size[0]? = some s0)
    (hpos : 0 ≤ s0)
    (hil : t1.input_len = t2.input_len) (hol : t1.output_len = t2.output_len)
    (hty : t1.node_type.take s0.toNat = t2.node_type.take s0.toNat)
    (hv : t1.node_value.take s0.toNat = t2.node_value.take s0.toNat)
    (hs : t1.subtree_size.take s0.toNat = t2.subtree_size.take s0.toNat) :
    python_forward t1 inputs = python_forward t2 inputs ∧
    Tree.str t1 = Tree.str t2 ∧ to_infix t1 = to_infix t2 := by
  have htyj := take_agree_getElem hty
  have hvj := take_agree_getElem hv
  have he1 : np_get t1.subtree_size 0 = .ok s0 := by rw [np_get, h1]
  have he2 : np_get t2.subtree_size 0 = .ok s0 := by rw [np_get, h2]
  refine ⟨?_, ?_, ?_⟩
  · rw [python_forward, python_forward, hil, hol]
    by_cases hc1 : ((inputs.length : ℕ) : ℤ) = t2.input_len
    · rw [if_pos hc1, if_pos hc1]
      by_cases hc2 : t2.output_len = 1
      · rw [if_pos hc2, if_pos hc2]
        simp only [he1, he2]
        have heval := evalLoopAux_agree t1 t2 inputs s0.toNat htyj hvj
          (descRange s0.toNat)
          (by
            intro i hi
            rw [descRange, List.mem_reverse, List.mem_range] at hi
            exact hi)
          []
        rw [heval]
      · rw [if_neg hc2, if_neg hc2]
    · rw [if_neg hc1, if_neg hc1]
  · rw [Tree.str, Tree.str]
    simp only [he1, he2]
    exact strLoopAux_agree t1 t2 s0.toNat htyj hvj (List.range s0.toNat)
      (by
        intro i hi
        rw [List.mem_range] at hi
        exact hi)
      ""
  · rw [ to_infix, to_infix, hol]
    simp only [he1, he2]
    have hsl1 : pySlice t1.node_type s0 = pySlice t2.node_type s0 := by
      rw [pySlice, pySlice, if_pos hpos, if_pos hpos, hty]
    have hsl2 : pySlice t1.node_value s0 = pySlice t2.node_value s0 := by
      rw [pySlice, pySlice, if_pos hpos, if_pos hpos, hv]
    rw [hsl1, hsl2]

/-- First tree of the C8 witness: a single-constant tree with one padding
slot. -/
def t8a : Tree := ⟨0, 1, [5, 9], [.CONST, .CONST], [1, 1]⟩

/-- Second tree of the C8 witness: same root span as `t8a`, entirely
different padding slot in all three arrays. -/
def t8b : Tree := ⟨0, 1, [5, 7], [.CONST, .VAR], [1, 3]⟩

/-- C8 (witness): `t8a` and `t8b` differ only in padding and are
indistinguishable to the interpreter and both serializers. -/
theorem c8_witness :
    python_forward t8a [] = python_forward t8b [] ∧
    Tree.str t8a = Tree.str t8b ∧ to_infix t8a = to_infix t8b :=
  c8_padding_never_read t8a t8b [] 1 rfl rfl (by decide) rfl rfl
    (by decide) (by decide) (by decide)

/-- C9: on a tree whose root span encodes a well-formed arith expression,
`to_infix` with `output_len ≠ 1` sets the warning flag but still completes
the reverse pass and returns a rendered string — the warning is not a
fault. -/
theorem c9_warn_not_fault (t : Tree) (T : GTree)
    (hE : Encodes t T) (hA : T.arith t.input_len = true)
    (hout : t.output_len ≠ 1) :
    ( to_infix t).1 = true ∧ ∃ s, ( to_infix t).2 = .ok s := by
  obtain ⟨s, hs⟩ := serializer_encodes t T hE hA
  rw [hs]
  exact ⟨by simp [hout], ⟨s, rfl⟩⟩

/-- The C9 witness tree: the single-ADD encoding with `output_len = 2`. -/
def w9t : Tree := ⟨2, 2, [1, 0, 1], [.BFUNC, .VAR, .VAR], [3, 1, 1]⟩

/-- C9 (witness): the two-output single-ADD tree warns and still renders. -/
theorem c9_witness :
    ( to_infix w9t).1 = true ∧ ∃ s, ( to_infix w9t).2 = .ok s :=
  c9_warn_not_fault w9t (GTree.bin Func.ADD (GTree.var 0) (GTree.var 1))
    (by decide) (by decide) (by decide)

/-- C10: `SR_fitness` on any Tree and any inputs/labels passing the two
shape assertions always raises `AttributeError` — the argument list of
the kernel call reads the never-assigned attributes `batch_node_value`,
`batch_node_type`, `batch_subtree_size` — so the fitness kernel (an `ok`
result carrying `KernelArgs`) is never invoked. -/
theorem c10_sr_fitness_attribute_error (t : Tree) (inputs labels : Tens2)
    (u : Bool)
    (hin : (inputs.cols : ℤ) = t.input_len)
    (hlr : labels.rows = inputs.rows)
    (hlc : (labels.cols : ℤ) = t.output_len) :
    SR_fitness t inputs labels u = .error .attributeError := by
  rw [SR_fitness, if_pos ⟨rfl, hin⟩, if_pos ⟨hlr, hlc⟩]
  rfl

/-- C10 (witness): a batch of 5 rows with matching shapes on the
single-ADD tree. -/
theorem c10_witness :
    SR_fitness addT ⟨5, 2⟩ ⟨5, 1⟩ true = .error .attributeError :=
  c10_sr_fitness_attribute_error addT ⟨5, 2⟩ ⟨5, 1⟩ true (by decide) rfl
    (by decide)

end EvoGP
